import Mathlib

/-!
# Verification of the `float_ord` crate (src/lib.rs)

The crate orders IEEE-754 floating point numbers into the total order

    -NaN | -Infinity | x < 0 | -0 | +0 | x > 0 | +Infinity | +NaN

via the bit transform `FloatOrd::convert`: reinterpret the float's bits as a
same-width unsigned integer `u`; if the sign bit is clear the key is
`u | signBit`, otherwise the key is `!u`.  Equality, ordering and hashing of
the wrapper all compare/hash the key.

We embed the code over `Nat` bit patterns.  A float of width `w` is its bit
pattern `u < 2 ^ w`; `transmute::<f, u>` is the identity on the pattern.
Machine-integer operations are `Nat` bitwise operations, with the w-bit
complement `!u` embedded as `u ^^^ (2 ^ w - 1)` (xor with the all-ones word).

The IEEE-754 *numeric* reading of a pattern (needed to state "native
comparison" claims) is modelled separately, parametrised by the exponent
width `E` and mantissa width `M` (`w = 1 + E + M`; f32: E=8, M=23;
f64: E=11, M=52), with the standard value formula over `ℚ`.
-/

/-- The wrapper `pub struct FloatOrd<T>(pub T)`: a transparent single-field
container for a value of the underlying type. -/
structure FloatOrd (α : Type) where
  val : α

/-- `FloatOrd::convert` from the source, for bit width `w`.  The stored float
is represented by its bit pattern, so the `transmute` is the identity;
`1 << (n - 1)` is `1 <<< (w - 1)`; `u & bit == 0` is `u &&& bit = 0`;
`u | bit` is `u ||| bit`; the w-bit complement `!u` is `u ^^^ (2 ^ w - 1)`. -/
def FloatOrd.convert (w : Nat) (x : FloatOrd Nat) : Nat :=
  let u := x.val
  let bit := 1 <<< (w - 1)
  if u &&& bit = 0 then u ||| bit else u ^^^ (2 ^ w - 1)

/-- `PartialEq` (and `Eq`) for the wrapper: `self.convert() == other.convert()`. -/
def FloatOrd.eq (w : Nat) (x y : FloatOrd Nat) : Bool :=
  x.convert w == y.convert w

/-- `Ord::cmp` for the wrapper: `self.convert().cmp(&other.convert())`,
the three-way comparison of the unsigned keys. -/
def FloatOrd.cmp (w : Nat) (x y : FloatOrd Nat) : Ordering :=
  compare (x.convert w) (y.convert w)

/-- `PartialOrd::partial_cmp` for the wrapper:
`self.convert().partial_cmp(&other.convert())`.  On unsigned integers Rust's
`partial_cmp` is `Some(self.cmp(other))`, never `None`. -/
def FloatOrd.pcmp (w : Nat) (x y : FloatOrd Nat) : Option Ordering :=
  some (compare (x.convert w) (y.convert w))

/-- `Hash` for the wrapper: `self.convert().hash(state)` feeds the key to the
hash accumulator; the accumulator is modelled by an arbitrary function `h`
from the fed integer to the final digest. -/
def FloatOrd.hashWith {α : Type} (w : Nat) (h : Nat → α) (x : FloatOrd Nat) : α :=
  h (x.convert w)

/-- `impl Add for FloatOrd<T>` (macro `float_ord_ops_impl`):
`FloatOrd((self.0).add(rhs.0))`.  The impl is generic over `T`, so the
underlying native operator is a parameter. -/
def FloatOrd.add {α : Type} (op : α → α → α) (x y : FloatOrd α) : FloatOrd α :=
  FloatOrd.mk (op x.val y.val)

/-- `impl Add<T> for FloatOrd<T>`: `FloatOrd((self.0).add(rhs))`. -/
def FloatOrd.addRaw {α : Type} (op : α → α → α) (x : FloatOrd α) (r : α) : FloatOrd α :=
  FloatOrd.mk (op x.val r)

/-- `impl Sub for FloatOrd<T>`. -/
def FloatOrd.sub {α : Type} (op : α → α → α) (x y : FloatOrd α) : FloatOrd α :=
  FloatOrd.mk (op x.val y.val)

/-- `impl Sub<T> for FloatOrd<T>`. -/
def FloatOrd.subRaw {α : Type} (op : α → α → α) (x : FloatOrd α) (r : α) : FloatOrd α :=
  FloatOrd.mk (op x.val r)

/-- `impl Mul for FloatOrd<T>`. -/
def FloatOrd.mul {α : Type} (op : α → α → α) (x y : FloatOrd α) : FloatOrd α :=
  FloatOrd.mk (op x.val y.val)

/-- `impl Mul<T> for FloatOrd<T>`. -/
def FloatOrd.mulRaw {α : Type} (op : α → α → α) (x : FloatOrd α) (r : α) : FloatOrd α :=
  FloatOrd.mk (op x.val r)

/-- `impl Div for FloatOrd<T>`. -/
def FloatOrd.div {α : Type} (op : α → α → α) (x y : FloatOrd α) : FloatOrd α :=
  FloatOrd.mk (op x.val y.val)

/-- `impl Div<T> for FloatOrd<T>`. -/
def FloatOrd.divRaw {α : Type} (op : α → α → α) (x : FloatOrd α) (r : α) : FloatOrd α :=
  FloatOrd.mk (op x.val r)

/-- `impl Rem for FloatOrd<T>`. -/
def FloatOrd.rem {α : Type} (op : α → α → α) (x y : FloatOrd α) : FloatOrd α :=
  FloatOrd.mk (op x.val y.val)

/-- `impl Rem<T> for FloatOrd<T>`. -/
def FloatOrd.remRaw {α : Type} (op : α → α → α) (x : FloatOrd α) (r : α) : FloatOrd α :=
  FloatOrd.mk (op x.val r)

/-! ## Arithmetic characterisation of the bit operations -/

lemma lor_two_pow_of_lt {k u : Nat} (h : u < 2 ^ k) : u ||| 2 ^ k = u + 2 ^ k := by
  apply Nat.eq_of_testBit_eq
  intro i
  rcases lt_trichotomy i k with hik | rfl | hik
  · rw [Nat.testBit_or, Nat.testBit_two_pow_of_ne (by omega), Nat.add_comm,
      Nat.testBit_two_pow_add_gt hik, Bool.or_false]
  · rw [Nat.testBit_or, Nat.testBit_two_pow_self, Nat.add_comm,
      Nat.testBit_two_pow_add_eq, Nat.testBit_lt_two_pow h, Bool.or_true]
    rfl
  · have h2 : 2 ^ (k + 1) ≤ 2 ^ i := Nat.pow_le_pow_right (by norm_num) (by omega)
    have hu : u + 2 ^ k < 2 ^ i := by
      have := Nat.pow_succ 2 k
      omega
    rw [Nat.testBit_or, Nat.testBit_two_pow_of_ne (by omega),
      Nat.testBit_lt_two_pow (by omega), Nat.testBit_lt_two_pow hu]
    rfl

lemma xor_two_pow_sub_one {w u : Nat} (h : u < 2 ^ w) :
    u ^^^ (2 ^ w - 1) = 2 ^ w - 1 - u := by
  apply Nat.eq_of_testBit_eq
  intro i
  have h1 : 2 ^ w - 1 - u = 2 ^ w - (u + 1) := by omega
  rw [h1, Nat.testBit_two_pow_sub_succ h, Nat.testBit_xor, Nat.testBit_two_pow_sub_one]
  by_cases hi : i < w
  · simp [hi]
  · have hu : u < 2 ^ i := lt_of_lt_of_le h (Nat.pow_le_pow_right (by norm_num) (by omega))
    simp [hi, Nat.testBit_lt_two_pow hu]

lemma land_two_pow_eq_zero_iff {k u : Nat} (h : u < 2 ^ (k + 1)) :
    u &&& 2 ^ k = 0 ↔ u < 2 ^ k := by
  rw [Nat.and_two_pow, Nat.testBit_to_div_mod]
  rw [Nat.pow_succ] at h
  generalize hP : 2 ^ k = P at *
  have h2 : 0 < P := by rw [← hP]; exact Nat.two_pow_pos k
  have hm : u % P < P := Nat.mod_lt _ h2
  have hd := Nat.div_add_mod u P
  have hq : u / P < 2 := Nat.div_lt_of_lt_mul h
  generalize hQ : u / P = q at hd hq ⊢
  rcases (by omega : q = 0 ∨ q = 1) with hq1 | hq1
  · rw [hq1] at hd ⊢
    simp only [Nat.mul_zero, Nat.zero_add] at hd
    simp
    omega
  · rw [hq1] at hd ⊢
    simp only [Nat.mul_one] at hd
    simp
    omega

/-- The transform, arithmetically: a sign-clear pattern gets the sign-bit
value added; a sign-set pattern is complemented within the w-bit word. -/
lemma convert_eq_arith {w : Nat} (hw : 1 ≤ w) {u : Nat} (hu : u < 2 ^ w) :
    FloatOrd.convert w ⟨u⟩ = if u < 2 ^ (w - 1) then u + 2 ^ (w - 1) else 2 ^ w - 1 - u := by
  obtain ⟨k, rfl⟩ : ∃ k, w = k + 1 := ⟨w - 1, by omega⟩
  simp only [FloatOrd.convert, Nat.add_sub_cancel, Nat.shiftLeft_eq, Nat.one_mul]
  rw [if_congr (land_two_pow_eq_zero_iff hu) rfl rfl]
  by_cases hlt : u < 2 ^ k
  · rw [if_pos hlt, if_pos hlt, lor_two_pow_of_lt hlt]
  · rw [if_neg hlt, if_neg hlt, xor_two_pow_sub_one hu]

/-! ## IEEE-754 numeric model

A pattern `u < 2 ^ (1 + E + M)` has sign bit `u / 2 ^ (E + M)`, exponent
field `rest / 2 ^ M` and mantissa field `rest % 2 ^ M`, where
`rest = u % 2 ^ (E + M)` is the pattern without its sign bit.  f32 is
`E = 8, M = 23`; f64 is `E = 11, M = 52`. -/

/-- Numeric weight of the sign bit: `2 ^ (E + M)`. -/
def signHalf (E M : Nat) : Nat := 2 ^ (E + M)

/-- The pattern without its sign bit (exponent and mantissa fields). -/
def restOf (E M u : Nat) : Nat := u % signHalf E M

/-- The exponent field. -/
def expOf (E M u : Nat) : Nat := restOf E M u / 2 ^ M

/-- The mantissa field. -/
def manOf (E M u : Nat) : Nat := restOf E M u % 2 ^ M

/-- The sign-less pattern of an infinity: exponent all ones, mantissa zero. -/
def infRest (E M : Nat) : Nat := (2 ^ E - 1) * 2 ^ M

/-- NaN: exponent all ones and mantissa nonzero, i.e. the sign-less pattern
lies strictly above the infinity pattern. -/
def isNaN (E M u : Nat) : Prop := infRest E M < restOf E M u

/-- The sign bit is set. -/
def isNegative (E M u : Nat) : Prop := signHalf E M ≤ u

/-- Finite value: exponent field is not all ones. -/
def isFinite (E M u : Nat) : Prop := restOf E M u < infRest E M

/-- The pattern of -Infinity (sign set, infinity rest). -/
def isNegInf (E M u : Nat) : Prop := signHalf E M ≤ u ∧ restOf E M u = infRest E M

/-- The pattern of +Infinity (sign clear, infinity rest). -/
def isPosInf (E M u : Nat) : Prop := u < signHalf E M ∧ restOf E M u = infRest E M

instance (E M u : Nat) : Decidable (isNaN E M u) := by unfold isNaN; infer_instance

instance (E M u : Nat) : Decidable (isNegative E M u) := by unfold isNegative; infer_instance

instance (E M u : Nat) : Decidable (isFinite E M u) := by unfold isFinite; infer_instance

instance (E M u : Nat) : Decidable (isNegInf E M u) := by unfold isNegInf; infer_instance

instance (E M u : Nat) : Decidable (isPosInf E M u) := by unfold isPosInf; infer_instance

/-- The magnitude of a finite sign-less pattern `r`, scaled by the constant
`2 ^ (expBias E + M - 1)` so that it is a natural number: a subnormal
(`e = 0`) has magnitude `m`, a normal has magnitude `(2 ^ M + m) * 2 ^ (e-1)`.
The true magnitude is `scaledMag * 2 ^ (1 - expBias E - M)`. -/
def scaledMag (E M r : Nat) : Nat :=
  if r / 2 ^ M = 0 then r % 2 ^ M else (2 ^ M + r % 2 ^ M) * 2 ^ (r / 2 ^ M - 1)

/-- A scaled magnitude strictly larger than that of every finite pattern,
standing in for infinity. -/
def infMag (E M : Nat) : Nat := 2 ^ (2 ^ E + M)

/-- Scaled magnitude of a non-NaN sign-less pattern, infinity included. -/
def magOf (E M r : Nat) : Nat :=
  if r = infRest E M then infMag E M else scaledMag E M r

/-- Signed scaled value of a non-NaN pattern, as an integer.  For non-NaN
patterns the native numeric order is exactly the order of `ival` (proved
below against the ℚ-valued IEEE formula `qVal`). -/
def ival (E M u : Nat) : ℤ :=
  if signHalf E M ≤ u then -(magOf E M (restOf E M u) : ℤ) else (magOf E M (restOf E M u) : ℤ)

/-- The IEEE-754 exponent bias, `2 ^ (E - 1) - 1` (127 for f32, 1023 for f64). -/
def expBias (E : Nat) : Nat := 2 ^ (E - 1) - 1

/-- The numeric value of a finite pattern, by the standard IEEE-754 formula:
`(-1)^s * (m / 2^M) * 2^(1 - bias)` for subnormals (`e = 0`) and
`(-1)^s * (1 + m / 2^M) * 2^(e - bias)` for normals. -/
def qVal (E M u : Nat) : ℚ :=
  (if signHalf E M ≤ u then -1 else 1) *
    (if expOf E M u = 0 then
      (manOf E M u : ℚ) / 2 ^ M * (2 : ℚ) ^ ((1 : ℤ) - expBias E)
    else
      (1 + (manOf E M u : ℚ) / 2 ^ M) * (2 : ℚ) ^ ((expOf E M u : ℤ) - expBias E))

/-- Native IEEE `<` on two non-NaN patterns: -Infinity is below everything
but itself, +Infinity is above everything but itself, finite values compare
by their numeric value (so -0 and +0 are equal, both having value 0). -/
def floatLt (E M a b : Nat) : Prop :=
  (isNegInf E M a ∧ ¬isNegInf E M b) ∨
  (¬isPosInf E M a ∧ isPosInf E M b) ∨
  (isFinite E M a ∧ isFinite E M b ∧ qVal E M a < qVal E M b)

/-- Native IEEE `==` on two patterns: false if either is NaN; otherwise both
are the same infinity, or both are finite with equal numeric value. -/
def nativeEq (E M a b : Nat) : Prop :=
  ¬isNaN E M a ∧ ¬isNaN E M b ∧
    ((isNegInf E M a ∧ isNegInf E M b) ∨ (isPosInf E M a ∧ isPosInf E M b) ∨
      (isFinite E M a ∧ isFinite E M b ∧ qVal E M a = qVal E M b))

instance (E M a b : Nat) : Decidable (floatLt E M a b) := by
  unfold floatLt; infer_instance

instance (E M a b : Nat) : Decidable (nativeEq E M a b) := by
  unfold nativeEq; infer_instance

/-! ## The target total order of §1 of the specification -/

/-- The class of a pattern in the target order
`-NaN < -Infinity < x<0 < -0 < +0 < x>0 < +Infinity < +NaN`,
numbered 0..7 from least to greatest. -/
def targetClass (E M u : Nat) : Nat :=
  if signHalf E M ≤ u then
    if infRest E M < restOf E M u then 0
    else if restOf E M u = infRest E M then 1
    else if restOf E M u = 0 then 3
    else 2
  else
    if infRest E M < restOf E M u then 7
    else if restOf E M u = infRest E M then 6
    else if restOf E M u = 0 then 4
    else 5

/-- `a` precedes or equals `b` in the target total order: its class is
strictly smaller, or the classes agree and (inside the two classes of
ordinary nonzero numbers, which hold more than one value each) the native
numeric values are ordered.  Same-sign NaNs are mutually equal in this
order, as §1/§3 of the specification state. -/
def targetLE (E M a b : Nat) : Prop :=
  targetClass E M a < targetClass E M b ∨
  (targetClass E M a = targetClass E M b ∧
    ((targetClass E M a = 2 ∨ targetClass E M a = 5) → qVal E M a ≤ qVal E M b))

instance (E M a b : Nat) : Decidable (targetLE E M a b) := by
  unfold targetLE; infer_instance

/-- Modelled from the spec: the transform as §4.1 words it.  "If the sign
bit of `u` is clear ... result = `u | signBit`"; "if the sign bit of `u` is
set ... bitwise-complement the entire integer", the w-bit complement of `u`
being `2 ^ w - 1 - u`; `signBit = 1 << (width - 1)`. -/
def specKey (w u : Nat) : Nat :=
  if u.testBit (w - 1) = false then u ||| 1 <<< (w - 1) else 2 ^ w - 1 - u

/-! ## Basic facts about the fields and the transform -/

lemma signHalf_pos (E M : Nat) : 0 < signHalf E M := Nat.two_pow_pos _

lemma infRest_lt_signHalf (E M : Nat) : infRest E M < signHalf E M := by
  unfold infRest signHalf
  have hM := Nat.two_pow_pos M
  have hE := Nat.two_pow_pos E
  rw [pow_add]
  exact mul_lt_mul_of_pos_right (by omega) hM

lemma restOf_lt (E M u : Nat) : restOf E M u < signHalf E M :=
  Nat.mod_lt _ (signHalf_pos E M)

lemma restOf_of_lt {E M u : Nat} (h : u < signHalf E M) : restOf E M u = u :=
  Nat.mod_eq_of_lt h

lemma restOf_of_ge {E M u : Nat} (hu : u < 2 * signHalf E M) (h : signHalf E M ≤ u) :
    restOf E M u = u - signHalf E M := by
  unfold restOf
  rw [Nat.mod_eq_sub_mod h]
  exact Nat.mod_eq_of_lt (by omega)

lemma two_pow_width (E M : Nat) : 2 ^ (E + M + 1) = 2 * signHalf E M := by
  unfold signHalf
  rw [pow_succ]
  ring

lemma convert_pos {E M u : Nat} (hu : u < signHalf E M) :
    FloatOrd.convert (E + M + 1) ⟨u⟩ = u + signHalf E M := by
  have hs : signHalf E M = 2 ^ (E + M) := rfl
  rw [hs] at hu ⊢
  have hu2 : u < 2 ^ (E + M + 1) := by
    rw [pow_succ]
    omega
  rw [convert_eq_arith (by omega) hu2]
  simp only [Nat.add_sub_cancel]
  rw [if_pos hu]

lemma convert_neg {E M u : Nat} (hu : u < 2 * signHalf E M) (h : signHalf E M ≤ u) :
    FloatOrd.convert (E + M + 1) ⟨u⟩ = 2 * signHalf E M - 1 - u := by
  have hs : signHalf E M = 2 ^ (E + M) := rfl
  rw [hs] at hu h ⊢
  rw [convert_eq_arith (by omega) (by rw [pow_succ]; omega)]
  simp only [Nat.add_sub_cancel]
  rw [if_neg (by omega), pow_succ]
  ring_nf

/-! ## Strict monotonicity of the scaled magnitude -/

lemma scaledMag_strictMono (E M : Nat) {r1 r2 : Nat} (h : r1 < r2) :
    scaledMag E M r1 < scaledMag E M r2 := by
  unfold scaledMag
  have hM : (0:Nat) < 2 ^ M := Nat.two_pow_pos M
  have hee : r1 / 2 ^ M ≤ r2 / 2 ^ M := Nat.div_le_div_right (le_of_lt h)
  have h1 := Nat.div_add_mod r1 (2 ^ M)
  have h2 := Nat.div_add_mod r2 (2 ^ M)
  have hm1 : r1 % 2 ^ M < 2 ^ M := Nat.mod_lt _ hM
  have hm2 : r2 % 2 ^ M < 2 ^ M := Nat.mod_lt _ hM
  generalize hE1 : r1 / 2 ^ M = e1 at *
  generalize hE2 : r2 / 2 ^ M = e2 at *
  generalize hM1 : r1 % 2 ^ M = m1 at *
  generalize hM2 : r2 % 2 ^ M = m2 at *
  match e1, e2 with
  | 0, 0 =>
    rw [if_pos rfl, if_pos rfl]
    omega
  | 0, s2 + 1 =>
    rw [if_pos rfl, if_neg (Nat.succ_ne_zero s2)]
    simp only [Nat.add_sub_cancel]
    calc m1 < 2 ^ M := hm1
      _ ≤ 2 ^ M * 2 ^ s2 := Nat.le_mul_of_pos_right _ (Nat.two_pow_pos s2)
      _ ≤ (2 ^ M + m2) * 2 ^ s2 := Nat.mul_le_mul_right _ (by omega)
  | s1 + 1, 0 =>
    omega
  | s1 + 1, s2 + 1 =>
    rw [if_neg (Nat.succ_ne_zero s1), if_neg (Nat.succ_ne_zero s2)]
    simp only [Nat.add_sub_cancel]
    rcases Nat.lt_or_ge s1 s2 with hs | hs
    · have hp : 2 ^ (M + 1) = 2 ^ M * 2 := pow_succ 2 M
      calc (2 ^ M + m1) * 2 ^ s1 < 2 ^ (M + 1) * 2 ^ s1 :=
            (Nat.mul_lt_mul_right (Nat.two_pow_pos s1)).mpr (by omega)
        _ = 2 ^ (M + 1 + s1) := (pow_add 2 (M + 1) s1).symm
        _ ≤ 2 ^ (M + s2) := Nat.pow_le_pow_right (by norm_num) (by omega)
        _ = 2 ^ M * 2 ^ s2 := pow_add 2 M s2
        _ ≤ (2 ^ M + m2) * 2 ^ s2 := Nat.mul_le_mul_right _ (by omega)
    · have hs' : s1 = s2 := by omega
      subst hs'
      have hmm : m1 < m2 := by omega
      exact (Nat.mul_lt_mul_right (Nat.two_pow_pos s1)).mpr (by omega)

lemma scaledMag_mono (E M : Nat) {r1 r2 : Nat} (h : r1 ≤ r2) :
    scaledMag E M r1 ≤ scaledMag E M r2 := by
  rcases Nat.lt_or_ge r1 r2 with hlt | hge
  · exact le_of_lt (scaledMag_strictMono E M hlt)
  · have : r1 = r2 := by omega
    rw [this]

lemma scaledMag_lt_infMag (E M : Nat) {r : Nat} (hr : r ≤ infRest E M) :
    scaledMag E M r < infMag E M := by
  have hstep : scaledMag E M r ≤ scaledMag E M (infRest E M) := scaledMag_mono E M hr
  have hM : (0:Nat) < 2 ^ M := Nat.two_pow_pos M
  have htop : scaledMag E M (infRest E M) < infMag E M := by
    unfold scaledMag infRest infMag
    rw [Nat.mul_div_cancel _ hM, Nat.mul_mod_left]
    have hE := Nat.two_pow_pos E
    by_cases hE0 : 2 ^ E - 1 = 0
    · rw [hE0]
      simp
    · rw [if_neg hE0, Nat.add_zero]
      calc 2 ^ M * 2 ^ (2 ^ E - 1 - 1) = 2 ^ (M + (2 ^ E - 1 - 1)) := by rw [pow_add]
        _ < 2 ^ (2 ^ E + M) := Nat.pow_lt_pow_right (by norm_num) (by omega)
  omega

lemma magOf_lt_of_lt (E M : Nat) {r1 r2 : Nat} (h12 : r1 < r2) (h2 : r2 ≤ infRest E M) :
    magOf E M r1 < magOf E M r2 := by
  unfold magOf
  rw [if_neg (by omega)]
  by_cases h2e : r2 = infRest E M
  · rw [if_pos h2e]
    exact scaledMag_lt_infMag E M (by omega)
  · rw [if_neg h2e]
    exact scaledMag_strictMono E M h12

lemma magOf_le_iff (E M : Nat) {r1 r2 : Nat} (h1 : r1 ≤ infRest E M) (h2 : r2 ≤ infRest E M) :
    magOf E M r1 ≤ magOf E M r2 ↔ r1 ≤ r2 := by
  constructor
  · intro hle
    by_contra hc
    have hlt : r2 < r1 := by omega
    have := magOf_lt_of_lt E M hlt h1
    omega
  · intro hle
    rcases Nat.lt_or_ge r1 r2 with hlt | hge
    · exact le_of_lt (magOf_lt_of_lt E M hlt h2)
    · have : r1 = r2 := by omega
      rw [this]

lemma magOf_zero (E M : Nat) (hE : 1 ≤ E) : magOf E M 0 = 0 := by
  have hM : (0:Nat) < 2 ^ M := Nat.two_pow_pos M
  have hE2 : (2:Nat) ≤ 2 ^ E := by
    calc (2:Nat) = 2 ^ 1 := (pow_one 2).symm
      _ ≤ 2 ^ E := Nat.pow_le_pow_right (by norm_num) hE
  have hpos : 0 < infRest E M := by
    unfold infRest
    exact Nat.mul_pos (by omega) hM
  unfold magOf
  rw [if_neg (by omega)]
  unfold scaledMag
  norm_num

lemma magOf_pos (E M : Nat) {r : Nat} (hE : 1 ≤ E) (hr : 0 < r) (hr2 : r ≤ infRest E M) :
    0 < magOf E M r := by
  have := magOf_lt_of_lt E M hr hr2
  rw [magOf_zero E M hE] at this
  omega

/-! ## The scaled integer value agrees with the IEEE value formula -/

lemma zpow_split_sub (B : ℤ) (M : Nat) :
    (2:ℚ) ^ ((1:ℤ) - B - M) = (2:ℚ) ^ ((1:ℤ) - B) / (2:ℚ) ^ (M:ℕ) := by
  rw [div_eq_mul_inv, ← zpow_natCast (2:ℚ) M, ← zpow_neg,
    ← zpow_add₀ (by norm_num : (2:ℚ) ≠ 0)]
  congr 1

lemma qVal_sub_case (B : ℤ) (M m : Nat) :
    (m:ℚ) / 2 ^ M * (2:ℚ) ^ ((1:ℤ) - B) = (m:ℚ) * (2:ℚ) ^ ((1:ℤ) - B - M) := by
  rw [zpow_split_sub]
  ring

lemma qVal_norm_case (B : ℤ) (M e m : Nat) (he : 1 ≤ e) :
    (1 + (m:ℚ) / 2 ^ M) * (2:ℚ) ^ ((e:ℤ) - B) =
      ((2:ℚ) ^ (M:ℕ) + m) * ((2:ℚ) ^ ((e:ℤ) - 1) * (2:ℚ) ^ ((1:ℤ) - B - M)) := by
  have hz : (2:ℚ) ≠ 0 := two_ne_zero
  have h2M : ((2:ℚ)) ^ (M:ℕ) ≠ 0 := pow_ne_zero _ hz
  have hmerge : (2:ℚ) ^ ((e:ℤ) - 1) * (2:ℚ) ^ ((1:ℤ) - B) = (2:ℚ) ^ ((e:ℤ) - B) := by
    rw [← zpow_add₀ hz]
    congr 1
    ring
  have h1 : (1 + (m:ℚ) / 2 ^ M) = ((2:ℚ) ^ (M:ℕ) + m) / 2 ^ (M:ℕ) := by
    field_simp
  rw [h1, zpow_split_sub, ← hmerge]
  ring

lemma qVal_eq_ival (E M u : Nat) (hfin : isFinite E M u) :
    qVal E M u = (ival E M u : ℚ) * (2:ℚ) ^ ((1:ℤ) - expBias E - M) := by
  have hne : restOf E M u ≠ infRest E M := by
    unfold isFinite at hfin
    omega
  unfold qVal ival magOf scaledMag expOf manOf
  rw [if_neg hne]
  generalize restOf E M u / 2 ^ M = e
  generalize restOf E M u % 2 ^ M = m
  by_cases hs : signHalf E M ≤ u
  · rw [if_pos hs, if_pos hs]
    by_cases he : e = 0
    · rw [if_pos he, if_pos he]
      push_cast
      linear_combination (-1 : ℚ) * qVal_sub_case (expBias E) M m
    · rw [if_neg he, if_neg he]
      push_cast
      rw [← zpow_natCast (2:ℚ) (e - 1), (show ((e - 1 : ℕ) : ℤ) = (e:ℤ) - 1 by omega)]
      linear_combination (-1 : ℚ) * qVal_norm_case (expBias E) M e m (by omega)
  · rw [if_neg hs, if_neg hs]
    by_cases he : e = 0
    · rw [if_pos he, if_pos he]
      push_cast
      linear_combination qVal_sub_case (expBias E) M m
    · rw [if_neg he, if_neg he]
      push_cast
      rw [← zpow_natCast (2:ℚ) (e - 1), (show ((e - 1 : ℕ) : ℤ) = (e:ℤ) - 1 by omega)]
      linear_combination qVal_norm_case (expBias E) M e m (by omega)

lemma qVal_lt_iff_ival_lt {E M a b : Nat} (ha : isFinite E M a) (hb : isFinite E M b) :
    qVal E M a < qVal E M b ↔ ival E M a < ival E M b := by
  rw [qVal_eq_ival E M a ha, qVal_eq_ival E M b hb]
  have hp : (0:ℚ) < (2:ℚ) ^ ((1:ℤ) - expBias E - M) := by positivity
  rw [mul_lt_mul_right hp]
  exact Int.cast_lt

lemma qVal_le_iff_ival_le {E M a b : Nat} (ha : isFinite E M a) (hb : isFinite E M b) :
    qVal E M a ≤ qVal E M b ↔ ival E M a ≤ ival E M b := by
  rw [qVal_eq_ival E M a ha, qVal_eq_ival E M b hb]
  have hp : (0:ℚ) < (2:ℚ) ^ ((1:ℤ) - expBias E - M) := by positivity
  rw [mul_le_mul_right hp]
  exact Int.cast_le

lemma qVal_eq_iff_ival_eq {E M a b : Nat} (ha : isFinite E M a) (hb : isFinite E M b) :
    qVal E M a = qVal E M b ↔ ival E M a = ival E M b := by
  rw [qVal_eq_ival E M a ha, qVal_eq_ival E M b hb]
  have hp : (2:ℚ) ^ ((1:ℤ) - expBias E - M) ≠ 0 := by positivity
  rw [mul_left_inj' hp]
  exact Int.cast_injective.eq_iff

/-! ## Order transfer: native order to key order -/

lemma rest_le_of_not_nan {E M u : Nat} (h : ¬isNaN E M u) :
    restOf E M u ≤ infRest E M := by
  unfold isNaN at h
  omega

lemma ival_of_neg {E M u : Nat} (hs : signHalf E M ≤ u) :
    ival E M u = -(magOf E M (restOf E M u) : ℤ) := by
  unfold ival
  rw [if_pos hs]

lemma ival_of_pos {E M u : Nat} (hs : u < signHalf E M) :
    ival E M u = (magOf E M (restOf E M u) : ℤ) := by
  unfold ival
  rw [if_neg (Nat.not_le.mpr hs)]

lemma magOf_of_inf (E M : Nat) : magOf E M (infRest E M) = infMag E M := by
  unfold magOf
  rw [if_pos rfl]

lemma magOf_of_ne {E M r : Nat} (h : r ≠ infRest E M) :
    magOf E M r = scaledMag E M r := by
  unfold magOf
  rw [if_neg h]

lemma ival_lt_of_floatLt {E M a b : Nat} (hna : ¬isNaN E M a) (hnb : ¬isNaN E M b)
    (h : floatLt E M a b) : ival E M a < ival E M b := by
  have hra := rest_le_of_not_nan hna
  have hrb := rest_le_of_not_nan hnb
  have hInf : 0 < infMag E M := Nat.two_pow_pos _
  rcases h with ⟨hA, hB⟩ | ⟨hA, hB⟩ | ⟨hfa, hfb, hq⟩
  · rw [ival_of_neg hA.1, hA.2, magOf_of_inf]
    by_cases hsb : signHalf E M ≤ b
    · have hrb2 : restOf E M b ≠ infRest E M := fun hc => hB ⟨hsb, hc⟩
      rw [ival_of_neg hsb, magOf_of_ne hrb2]
      have := scaledMag_lt_infMag E M hrb
      omega
    · rw [ival_of_pos (by omega)]
      omega
  · rw [ival_of_pos hB.1, hB.2, magOf_of_inf]
    by_cases hsa : signHalf E M ≤ a
    · rw [ival_of_neg hsa]
      omega
    · have hra2 : restOf E M a ≠ infRest E M := fun hc => hA ⟨by omega, hc⟩
      rw [ival_of_pos (by omega), magOf_of_ne hra2]
      have := scaledMag_lt_infMag E M hra
      omega
  · exact (qVal_lt_iff_ival_lt hfa hfb).1 hq

lemma convert_lt_of_ival_lt {E M a b : Nat} (ha : a < 2 * signHalf E M)
    (hb : b < 2 * signHalf E M) (hna : ¬isNaN E M a) (hnb : ¬isNaN E M b)
    (h : ival E M a < ival E M b) :
    FloatOrd.convert (E + M + 1) ⟨a⟩ < FloatOrd.convert (E + M + 1) ⟨b⟩ := by
  have hH := signHalf_pos E M
  have hiH := infRest_lt_signHalf E M
  have hra := rest_le_of_not_nan hna
  have hrb := rest_le_of_not_nan hnb
  by_cases hsa : signHalf E M ≤ a <;> by_cases hsb : signHalf E M ≤ b
  · rw [convert_neg ha hsa, convert_neg hb hsb]
    rw [ival_of_neg hsa, ival_of_neg hsb] at h
    have hmm : magOf E M (restOf E M b) < magOf E M (restOf E M a) := by omega
    have hrlt : restOf E M b < restOf E M a := by
      by_contra hc
      have := (magOf_le_iff E M hra hrb).2 (by omega)
      omega
    rw [restOf_of_ge ha hsa, restOf_of_ge hb hsb] at hrlt
    omega
  · rw [convert_neg ha hsa, convert_pos (by omega)]
    omega
  · exfalso
    rw [ival_of_pos (by omega), ival_of_neg hsb] at h
    omega
  · rw [convert_pos (by omega), convert_pos (by omega)]
    rw [ival_of_pos (by omega), ival_of_pos (by omega)] at h
    have hmm : magOf E M (restOf E M a) < magOf E M (restOf E M b) := by omega
    have hrlt : restOf E M a < restOf E M b := by
      by_contra hc
      have := (magOf_le_iff E M hrb hra).2 (by omega)
      omega
    rw [restOf_of_lt (by omega), restOf_of_lt (by omega)] at hrlt
    omega

lemma floatOrdCmp_eq_lt_iff (w : Nat) (x y : FloatOrd Nat) :
    FloatOrd.cmp w x y = Ordering.lt ↔ FloatOrd.convert w x < FloatOrd.convert w y := by
  unfold FloatOrd.cmp
  exact Nat.compare_eq_lt

lemma cmp_lt_of_floatLt {E M a b : Nat} (ha : a < 2 ^ (E + M + 1))
    (hb : b < 2 ^ (E + M + 1)) (hna : ¬isNaN E M a) (hnb : ¬isNaN E M b)
    (h : floatLt E M a b) :
    FloatOrd.cmp (E + M + 1) ⟨a⟩ ⟨b⟩ = Ordering.lt := by
  rw [floatOrdCmp_eq_lt_iff]
  rw [two_pow_width] at ha hb
  exact convert_lt_of_ival_lt ha hb hna hnb (ival_lt_of_floatLt hna hnb h)

/-! ## Key bands of the eight target-order classes -/

/-- Least key a pattern of target class `c` can have. -/
def classLow (E M c : Nat) : Nat :=
  match c with
  | 0 => 0
  | 1 => signHalf E M - 1 - infRest E M
  | 2 => signHalf E M - infRest E M
  | 3 => signHalf E M - 1
  | 4 => signHalf E M
  | 5 => signHalf E M + 1
  | 6 => signHalf E M + infRest E M
  | _ => signHalf E M + infRest E M + 1

/-- Greatest key a pattern of target class `c` can have. -/
def classHigh (E M c : Nat) : Nat :=
  match c with
  | 0 => signHalf E M - 2 - infRest E M
  | 1 => signHalf E M - 1 - infRest E M
  | 2 => signHalf E M - 2
  | 3 => signHalf E M - 1
  | 4 => signHalf E M
  | 5 => signHalf E M + infRest E M - 1
  | 6 => signHalf E M + infRest E M
  | _ => 2 * signHalf E M - 1

lemma targetClass_le_seven (E M u : Nat) : targetClass E M u ≤ 7 := by
  unfold targetClass
  split_ifs <;> omega

lemma infRest_pos {E M : Nat} (hE : 1 ≤ E) : 0 < infRest E M := by
  unfold infRest
  have h2M := Nat.two_pow_pos M
  have h2E : (2:ℕ) ≤ 2 ^ E := by
    calc (2:ℕ) = 2 ^ 1 := (pow_one 2).symm
      _ ≤ 2 ^ E := Nat.pow_le_pow_right (by norm_num) hE
  exact Nat.mul_pos (by omega) h2M

lemma infRest_add_two_pow {E M : Nat} : infRest E M + 2 ^ M = signHalf E M := by
  unfold infRest signHalf
  have h2E := Nat.two_pow_pos E
  have h1 : (2 ^ E - 1) * 2 ^ M = 2 ^ E * 2 ^ M - 2 ^ M := by
    rw [Nat.sub_one_mul]
  have h2 : 2 ^ M ≤ 2 ^ E * 2 ^ M := Nat.le_mul_of_pos_left _ h2E
  rw [pow_add]
  omega

lemma convert_band {E M u : Nat} (hu : u < 2 * signHalf E M) :
    classLow E M (targetClass E M u) ≤ FloatOrd.convert (E + M + 1) ⟨u⟩ ∧
      FloatOrd.convert (E + M + 1) ⟨u⟩ ≤ classHigh E M (targetClass E M u) := by
  have hH := signHalf_pos E M
  have hiH := infRest_lt_signHalf E M
  have hrlt := restOf_lt E M u
  unfold targetClass
  by_cases hs : signHalf E M ≤ u
  · have hr : restOf E M u = u - signHalf E M := restOf_of_ge hu hs
    rw [if_pos hs, convert_neg hu hs]
    by_cases h1 : infRest E M < restOf E M u
    · rw [if_pos h1]
      simp only [classLow, classHigh]
      omega
    · rw [if_neg h1]
      by_cases h2 : restOf E M u = infRest E M
      · rw [if_pos h2]
        simp only [classLow, classHigh]
        omega
      · rw [if_neg h2]
        by_cases h3 : restOf E M u = 0
        · rw [if_pos h3]
          simp only [classLow, classHigh]
          omega
        · rw [if_neg h3]
          simp only [classLow, classHigh]
          omega
  · have hr : restOf E M u = u := restOf_of_lt (by omega)
    rw [if_neg hs, convert_pos (by omega)]
    by_cases h1 : infRest E M < restOf E M u
    · rw [if_pos h1]
      simp only [classLow, classHigh]
      omega
    · rw [if_neg h1]
      by_cases h2 : restOf E M u = infRest E M
      · rw [if_pos h2]
        simp only [classLow, classHigh]
        omega
      · rw [if_neg h2]
        by_cases h3 : restOf E M u = 0
        · rw [if_pos h3]
          simp only [classLow, classHigh]
          omega
        · rw [if_neg h3]
          simp only [classLow, classHigh]
          omega

lemma classHigh_lt_classLow {E M c1 c2 : Nat} (hE : 1 ≤ E) (hM : 1 ≤ M)
    (h : c1 < c2) (h7 : c2 ≤ 7) : classHigh E M c1 < classLow E M c2 := by
  have h2M : (2:ℕ) ≤ 2 ^ M := by
    calc (2:ℕ) = 2 ^ 1 := (pow_one 2).symm
      _ ≤ 2 ^ M := Nat.pow_le_pow_right (by norm_num) hM
  have hHi := infRest_add_two_pow (E := E) (M := M)
  have hip := infRest_pos (M := M) hE
  have hc1 : c1 ≤ 6 := by omega
  interval_cases c1 <;> interval_cases c2 <;> simp only [classLow, classHigh] <;> omega

lemma convert_lt_of_class_lt {E M a b : Nat} (hE : 1 ≤ E) (hM : 1 ≤ M)
    (ha : a < 2 * signHalf E M) (hb : b < 2 * signHalf E M)
    (h : targetClass E M a < targetClass E M b) :
    FloatOrd.convert (E + M + 1) ⟨a⟩ < FloatOrd.convert (E + M + 1) ⟨b⟩ := by
  have b1 := convert_band ha
  have b2 := convert_band hb
  have hgap := classHigh_lt_classLow hE hM h (targetClass_le_seven E M b)
  omega

/-! ## Class computation and inversion -/

lemma pattern_cases (E M u : Nat) :
    (signHalf E M ≤ u ∧ infRest E M < restOf E M u) ∨
    (signHalf E M ≤ u ∧ restOf E M u = infRest E M) ∨
    (signHalf E M ≤ u ∧ restOf E M u = 0) ∨
    (signHalf E M ≤ u ∧ 0 < restOf E M u ∧ restOf E M u < infRest E M) ∨
    (u < signHalf E M ∧ infRest E M < restOf E M u) ∨
    (u < signHalf E M ∧ restOf E M u = infRest E M) ∨
    (u < signHalf E M ∧ restOf E M u = 0) ∨
    (u < signHalf E M ∧ 0 < restOf E M u ∧ restOf E M u < infRest E M) := by
  omega

lemma targetClass_compute {E M u : Nat} (hinf : 0 < infRest E M) :
    (signHalf E M ≤ u → infRest E M < restOf E M u → targetClass E M u = 0) ∧
    (signHalf E M ≤ u → restOf E M u = infRest E M → targetClass E M u = 1) ∧
    (signHalf E M ≤ u → restOf E M u = 0 → targetClass E M u = 3) ∧
    (signHalf E M ≤ u → 0 < restOf E M u → restOf E M u < infRest E M → targetClass E M u = 2) ∧
    (u < signHalf E M → infRest E M < restOf E M u → targetClass E M u = 7) ∧
    (u < signHalf E M → restOf E M u = infRest E M → targetClass E M u = 6) ∧
    (u < signHalf E M → restOf E M u = 0 → targetClass E M u = 4) ∧
    (u < signHalf E M → 0 < restOf E M u → restOf E M u < infRest E M → targetClass E M u = 5) := by
  unfold targetClass
  split_ifs <;>
    exact ⟨by intros; omega, by intros; omega, by intros; omega, by intros; omega,
      by intros; omega, by intros; omega, by intros; omega, by intros; omega⟩

lemma targetClass_inv {E M u : Nat} (hinf : 0 < infRest E M) :
    (targetClass E M u = 0 → signHalf E M ≤ u ∧ infRest E M < restOf E M u) ∧
    (targetClass E M u = 1 → signHalf E M ≤ u ∧ restOf E M u = infRest E M) ∧
    (targetClass E M u = 3 → signHalf E M ≤ u ∧ restOf E M u = 0) ∧
    (targetClass E M u = 2 →
      signHalf E M ≤ u ∧ 0 < restOf E M u ∧ restOf E M u < infRest E M) ∧
    (targetClass E M u = 7 → u < signHalf E M ∧ infRest E M < restOf E M u) ∧
    (targetClass E M u = 6 → u < signHalf E M ∧ restOf E M u = infRest E M) ∧
    (targetClass E M u = 4 → u < signHalf E M ∧ restOf E M u = 0) ∧
    (targetClass E M u = 5 →
      u < signHalf E M ∧ 0 < restOf E M u ∧ restOf E M u < infRest E M) := by
  have hc := targetClass_compute (u := u) hinf
  rcases pattern_cases E M u with h | h | h | h | h | h | h | h
  · obtain ⟨hs, hn⟩ := h
    have hk := hc.1 hs hn
    refine ⟨?_, ?_, ?_, ?_, ?_, ?_, ?_, ?_⟩ <;> intro hi <;> omega
  · obtain ⟨hs, hn⟩ := h
    have hk := hc.2.1 hs hn
    refine ⟨?_, ?_, ?_, ?_, ?_, ?_, ?_, ?_⟩ <;> intro hi <;> omega
  · obtain ⟨hs, hn⟩ := h
    have hk := hc.2.2.1 hs hn
    refine ⟨?_, ?_, ?_, ?_, ?_, ?_, ?_, ?_⟩ <;> intro hi <;> omega
  · obtain ⟨hs, h0, hf⟩ := h
    have hk := hc.2.2.2.1 hs h0 hf
    refine ⟨?_, ?_, ?_, ?_, ?_, ?_, ?_, ?_⟩ <;> intro hi <;> omega
  · obtain ⟨hs, hn⟩ := h
    have hk := hc.2.2.2.2.1 hs hn
    refine ⟨?_, ?_, ?_, ?_, ?_, ?_, ?_, ?_⟩ <;> intro hi <;> omega
  · obtain ⟨hs, hn⟩ := h
    have hk := hc.2.2.2.2.2.1 hs hn
    refine ⟨?_, ?_, ?_, ?_, ?_, ?_, ?_, ?_⟩ <;> intro hi <;> omega
  · obtain ⟨hs, hn⟩ := h
    have hk := hc.2.2.2.2.2.2.1 hs hn
    refine ⟨?_, ?_, ?_, ?_, ?_, ?_, ?_, ?_⟩ <;> intro hi <;> omega
  · obtain ⟨hs, h0, hf⟩ := h
    have hk := hc.2.2.2.2.2.2.2 hs h0 hf
    refine ⟨?_, ?_, ?_, ?_, ?_, ?_, ?_, ?_⟩ <;> intro hi <;> omega

/-! ## Injectivity, and the order characterisation -/

lemma convert_inj {w : Nat} (hw : 1 ≤ w) {a b : Nat} (ha : a < 2 ^ w) (hb : b < 2 ^ w)
    (h : FloatOrd.convert w ⟨a⟩ = FloatOrd.convert w ⟨b⟩) : a = b := by
  rw [convert_eq_arith hw ha, convert_eq_arith hw hb] at h
  have hp : 2 ^ w = 2 * 2 ^ (w - 1) := by
    obtain ⟨k, rfl⟩ : ∃ k, w = k + 1 := ⟨w - 1, by omega⟩
    rw [Nat.add_sub_cancel, pow_succ]
    ring
  by_cases h1 : a < 2 ^ (w - 1) <;> by_cases h2 : b < 2 ^ (w - 1)
  · rw [if_pos h1, if_pos h2] at h
    omega
  · rw [if_pos h1, if_neg h2] at h
    omega
  · rw [if_neg h1, if_pos h2] at h
    omega
  · rw [if_neg h1, if_neg h2] at h
    omega

lemma floatOrdEq_iff {w : Nat} (hw : 1 ≤ w) {a b : Nat} (ha : a < 2 ^ w) (hb : b < 2 ^ w) :
    FloatOrd.eq w ⟨a⟩ ⟨b⟩ = true ↔ a = b := by
  unfold FloatOrd.eq
  rw [beq_iff_eq]
  constructor
  · exact convert_inj hw ha hb
  · intro h
    rw [h]

lemma diag_neg_fin {E M a b : Nat} (ha : a < 2 * signHalf E M) (hb : b < 2 * signHalf E M)
    (hsa : signHalf E M ≤ a) (hsb : signHalf E M ≤ b)
    (h0a : 0 < restOf E M a) (hfa : restOf E M a < infRest E M)
    (h0b : 0 < restOf E M b) (hfb : restOf E M b < infRest E M) :
    (FloatOrd.convert (E + M + 1) ⟨a⟩ ≤ FloatOrd.convert (E + M + 1) ⟨b⟩ ↔
      qVal E M a ≤ qVal E M b) := by
  rw [qVal_le_iff_ival_le (by unfold isFinite; omega) (by unfold isFinite; omega),
    ival_of_neg hsa, ival_of_neg hsb, convert_neg ha hsa, convert_neg hb hsb]
  constructor
  · intro hle
    have hba : restOf E M b ≤ restOf E M a := by
      rw [restOf_of_ge ha hsa, restOf_of_ge hb hsb]
      omega
    have := (magOf_le_iff E M (by omega) (by omega)).2 hba
    omega
  · intro hle
    have hmm : magOf E M (restOf E M b) ≤ magOf E M (restOf E M a) := by omega
    have hba := (magOf_le_iff E M (by omega) (by omega)).1 hmm
    rw [restOf_of_ge ha hsa, restOf_of_ge hb hsb] at hba
    omega

lemma diag_pos_fin {E M a b : Nat} (hsa : a < signHalf E M) (hsb : b < signHalf E M)
    (h0a : 0 < restOf E M a) (hfa : restOf E M a < infRest E M)
    (h0b : 0 < restOf E M b) (hfb : restOf E M b < infRest E M) :
    (FloatOrd.convert (E + M + 1) ⟨a⟩ ≤ FloatOrd.convert (E + M + 1) ⟨b⟩ ↔
      qVal E M a ≤ qVal E M b) := by
  rw [qVal_le_iff_ival_le (by unfold isFinite; omega) (by unfold isFinite; omega),
    ival_of_pos hsa, ival_of_pos hsb, convert_pos hsa, convert_pos hsb]
  constructor
  · intro hle
    have hab : restOf E M a ≤ restOf E M b := by
      rw [restOf_of_lt hsa, restOf_of_lt hsb]
      omega
    have := (magOf_le_iff E M (by omega) (by omega)).2 hab
    omega
  · intro hle
    have hmm : magOf E M (restOf E M a) ≤ magOf E M (restOf E M b) := by omega
    have hab := (magOf_le_iff E M (by omega) (by omega)).1 hmm
    rw [restOf_of_lt hsa, restOf_of_lt hsb] at hab
    omega

/-- The key order realises the target total order of §1, on every pair that
is not two distinct same-sign NaNs. -/
lemma convert_le_iff_targetLE {E M a b : Nat} (hE : 1 ≤ E) (hM : 1 ≤ M)
    (ha : a < 2 ^ (E + M + 1)) (hb : b < 2 ^ (E + M + 1))
    (hx : ¬(isNaN E M a ∧ isNaN E M b ∧ (isNegative E M a ↔ isNegative E M b) ∧ a ≠ b)) :
    (FloatOrd.convert (E + M + 1) ⟨a⟩ ≤ FloatOrd.convert (E + M + 1) ⟨b⟩ ↔
      targetLE E M a b) := by
  rw [two_pow_width] at ha hb
  have hinf : 0 < infRest E M := infRest_pos hE
  rcases lt_trichotomy (targetClass E M a) (targetClass E M b) with hc | hc | hc
  · exact iff_of_true (le_of_lt (convert_lt_of_class_lt hE hM ha hb hc)) (Or.inl hc)
  · have hcompute := targetClass_compute (u := a) hinf
    have hinv := targetClass_inv (u := b) hinf
    rcases pattern_cases E M a with h | h | h | h | h | h | h | h
    · obtain ⟨hsa, hna⟩ := h
      have hka := hcompute.1 hsa hna
      have hkb : targetClass E M b = 0 := by omega
      obtain ⟨hsb, hnb⟩ := hinv.1 hkb
      have hab : a = b := by
        by_contra hne
        exact hx ⟨by unfold isNaN; omega, by unfold isNaN; omega,
          iff_of_true (by unfold isNegative; omega) (by unfold isNegative; omega), hne⟩
      subst hab
      exact iff_of_true (le_refl _) (Or.inr ⟨rfl, fun _ => le_refl _⟩)
    · obtain ⟨hsa, hia⟩ := h
      have hka := hcompute.2.1 hsa hia
      have hkb : targetClass E M b = 1 := by omega
      obtain ⟨hsb, hib⟩ := hinv.2.1 hkb
      have hab : a = b := by
        have hra := restOf_of_ge ha hsa
        have hrb := restOf_of_ge hb hsb
        omega
      subst hab
      exact iff_of_true (le_refl _) (Or.inr ⟨rfl, fun _ => le_refl _⟩)
    · obtain ⟨hsa, hza⟩ := h
      have hka := hcompute.2.2.1 hsa hza
      have hkb : targetClass E M b = 3 := by omega
      obtain ⟨hsb, hzb⟩ := hinv.2.2.1 hkb
      have hab : a = b := by
        have hra := restOf_of_ge ha hsa
        have hrb := restOf_of_ge hb hsb
        omega
      subst hab
      exact iff_of_true (le_refl _) (Or.inr ⟨rfl, fun _ => le_refl _⟩)
    · obtain ⟨hsa, h0a, hfa⟩ := h
      have hka := hcompute.2.2.2.1 hsa h0a hfa
      have hkb : targetClass E M b = 2 := by omega
      obtain ⟨hsb, h0b, hfb⟩ := hinv.2.2.2.1 hkb
      have hTL : targetLE E M a b ↔ qVal E M a ≤ qVal E M b := by
        unfold targetLE
        rw [hka, hkb]
        norm_num
      rw [hTL]
      exact diag_neg_fin ha hb hsa hsb h0a hfa h0b hfb
    · obtain ⟨hsa, hna⟩ := h
      have hka := hcompute.2.2.2.2.1 hsa hna
      have hkb : targetClass E M b = 7 := by omega
      obtain ⟨hsb, hnb⟩ := hinv.2.2.2.2.1 hkb
      have hab : a = b := by
        by_contra hne
        exact hx ⟨by unfold isNaN; omega, by unfold isNaN; omega,
          iff_of_false (by unfold isNegative; omega) (by unfold isNegative; omega), hne⟩
      subst hab
      exact iff_of_true (le_refl _) (Or.inr ⟨rfl, fun _ => le_refl _⟩)
    · obtain ⟨hsa, hia⟩ := h
      have hka := hcompute.2.2.2.2.2.1 hsa hia
      have hkb : targetClass E M b = 6 := by omega
      obtain ⟨hsb, hib⟩ := hinv.2.2.2.2.2.1 hkb
      have hab : a = b := by
        have hra := restOf_of_lt hsa
        have hrb := restOf_of_lt hsb
        omega
      subst hab
      exact iff_of_true (le_refl _) (Or.inr ⟨rfl, fun _ => le_refl _⟩)
    · obtain ⟨hsa, hza⟩ := h
      have hka := hcompute.2.2.2.2.2.2.1 hsa hza
      have hkb : targetClass E M b = 4 := by omega
      obtain ⟨hsb, hzb⟩ := hinv.2.2.2.2.2.2.1 hkb
      have hab : a = b := by
        have hra := restOf_of_lt hsa
        have hrb := restOf_of_lt hsb
        omega
      subst hab
      exact iff_of_true (le_refl _) (Or.inr ⟨rfl, fun _ => le_refl _⟩)
    · obtain ⟨hsa, h0a, hfa⟩ := h
      have hka := hcompute.2.2.2.2.2.2.2 hsa h0a hfa
      have hkb : targetClass E M b = 5 := by omega
      obtain ⟨hsb, h0b, hfb⟩ := hinv.2.2.2.2.2.2.2 hkb
      have hTL : targetLE E M a b ↔ qVal E M a ≤ qVal E M b := by
        unfold targetLE
        rw [hka, hkb]
        norm_num
      rw [hTL]
      exact diag_pos_fin hsa hsb h0a hfa h0b hfb
  · have hlt := convert_lt_of_class_lt hE hM hb ha hc
    apply iff_of_false
    · omega
    · intro hle
      unfold targetLE at hle
      rcases hle with h1 | ⟨h1, _⟩ <;> omega

/-! ## Remaining helpers for the claims -/

lemma targetClass_nonnan_range {E M v : Nat} (hinf : 0 < infRest E M)
    (hnn : ¬isNaN E M v) : 1 ≤ targetClass E M v ∧ targetClass E M v ≤ 6 := by
  have hc := targetClass_compute (u := v) hinf
  unfold isNaN at hnn
  rcases pattern_cases E M v with h | h | h | h | h | h | h | h
  · omega
  · have := hc.2.1 h.1 h.2
    omega
  · have := hc.2.2.1 h.1 h.2
    omega
  · have := hc.2.2.2.1 h.1 h.2.1 h.2.2
    omega
  · omega
  · have := hc.2.2.2.2.2.1 h.1 h.2
    omega
  · have := hc.2.2.2.2.2.2.1 h.1 h.2
    omega
  · have := hc.2.2.2.2.2.2.2 h.1 h.2.1 h.2.2
    omega

lemma nativeEq_refl {E M a : Nat} (hna : ¬isNaN E M a) : nativeEq E M a a := by
  refine ⟨hna, hna, ?_⟩
  unfold isNaN at hna
  by_cases hfin : restOf E M a < infRest E M
  · exact Or.inr (Or.inr ⟨hfin, hfin, rfl⟩)
  · have hr : restOf E M a = infRest E M := by omega
    by_cases hs : signHalf E M ≤ a
    · exact Or.inl ⟨⟨hs, hr⟩, ⟨hs, hr⟩⟩
    · exact Or.inr (Or.inl ⟨⟨by omega, hr⟩, ⟨by omega, hr⟩⟩)

/-! ## The claims -/

/-- C2: for every bit pattern at every width, the transform equals the
specification formula: reinterpret the bits as an unsigned integer `u`; if
the sign bit of `u` is clear the key is `u | signBit`, and if it is set the
key is the w-bit complement of `u`, with `signBit = 1 << (width - 1)`. -/
theorem C2_transform_formula :
    ∀ w u : Nat, 1 ≤ w → u < 2 ^ w → FloatOrd.convert w ⟨u⟩ = specKey w u := by
  intro w u hw hu
  rw [convert_eq_arith hw hu]
  unfold specKey
  have hiff : u.testBit (w - 1) = false ↔ u < 2 ^ (w - 1) := by
    obtain ⟨k, rfl⟩ : ∃ k, w = k + 1 := ⟨w - 1, by omega⟩
    rw [Nat.add_sub_cancel]
    have h1 := land_two_pow_eq_zero_iff (k := k) hu
    have h2 : u &&& 2 ^ k = (u.testBit k).toNat * 2 ^ k := Nat.and_two_pow u k
    constructor
    · intro hb
      apply h1.1
      rw [h2, hb]
      simp
    · intro hlt
      exact Nat.testBit_lt_two_pow hlt
  by_cases hbit : u.testBit (w - 1) = false
  · rw [if_pos hbit, if_pos (hiff.1 hbit), Nat.shiftLeft_eq, Nat.one_mul,
      lor_two_pow_of_lt (hiff.1 hbit)]
  · rw [if_neg hbit, if_neg (fun hlt => hbit (hiff.2 hlt))]

/-- Witness for C2 at two concrete patterns, one per width. -/
theorem C2_witness :
    FloatOrd.convert 32 ⟨0x3F800000⟩ = specKey 32 0x3F800000 ∧
    FloatOrd.convert 64 ⟨0x8000000000000000⟩ = specKey 64 0x8000000000000000 :=
  ⟨C2_transform_formula 32 0x3F800000 (by norm_num) (by norm_num),
   C2_transform_formula 64 0x8000000000000000 (by norm_num) (by norm_num)⟩

/-- C3: for all non-NaN patterns `a`, `b` (finite or infinite) with `a < b`
under native IEEE comparison, `compare(wrap(a), wrap(b))` is less-than.
Stated for every format with exponent width `E` and mantissa width `M`
(f32 is `E = 8, M = 23`, f64 is `E = 11, M = 52`). -/
theorem C3_compare_matches_native_order :
    ∀ E M a b : Nat, a < 2 ^ (E + M + 1) → b < 2 ^ (E + M + 1) →
      ¬isNaN E M a → ¬isNaN E M b → floatLt E M a b →
      FloatOrd.cmp (E + M + 1) ⟨a⟩ ⟨b⟩ = Ordering.lt :=
  fun _ _ _ _ ha hb hna hnb h => cmp_lt_of_floatLt ha hb hna hnb h

/-- Witness for C3: -Infinity compares below +Infinity at width 32. -/
theorem C3_witness : FloatOrd.cmp 32 ⟨0xFF800000⟩ ⟨0x7F800000⟩ = Ordering.lt :=
  C3_compare_matches_native_order 8 23 0xFF800000 0x7F800000 (by norm_num) (by norm_num)
    (by decide) (by decide) (by decide)

/-- C4: every negative NaN compares below every non-NaN value, every non-NaN
value compares below every positive NaN, and every negative NaN compares
below every positive NaN, for all NaN payloads, at every format width. -/
theorem C4_nan_placement :
    ∀ E M v n p : Nat, 1 ≤ E → 1 ≤ M →
      v < 2 ^ (E + M + 1) → n < 2 ^ (E + M + 1) → p < 2 ^ (E + M + 1) →
      ¬isNaN E M v → isNaN E M n → isNegative E M n → isNaN E M p → ¬isNegative E M p →
      FloatOrd.cmp (E + M + 1) ⟨n⟩ ⟨v⟩ = Ordering.lt ∧
      FloatOrd.cmp (E + M + 1) ⟨v⟩ ⟨p⟩ = Ordering.lt ∧
      FloatOrd.cmp (E + M + 1) ⟨n⟩ ⟨p⟩ = Ordering.lt := by
  intro E M v n p hE hM hv hn hp hnv hnn hsn hnp hsp
  have hinf := infRest_pos (M := M) hE
  rw [two_pow_width] at hv hn hp
  have hrange := targetClass_nonnan_range hinf hnv
  unfold isNaN at hnn hnp
  unfold isNegative at hsn hsp
  have hcn : targetClass E M n = 0 := (targetClass_compute hinf).1 hsn hnn
  have hcp : targetClass E M p = 7 := (targetClass_compute hinf).2.2.2.2.1 (by omega) hnp
  refine ⟨?_, ?_, ?_⟩
  · rw [floatOrdCmp_eq_lt_iff]
    exact convert_lt_of_class_lt hE hM hn hv (by omega)
  · rw [floatOrdCmp_eq_lt_iff]
    exact convert_lt_of_class_lt hE hM hv hp (by omega)
  · rw [floatOrdCmp_eq_lt_iff]
    exact convert_lt_of_class_lt hE hM hn hp (by omega)

/-- Witness for C4 at width 32 with v = +Infinity and quiet NaNs. -/
theorem C4_witness :
    FloatOrd.cmp 32 ⟨0xFFC00000⟩ ⟨0x7F800000⟩ = Ordering.lt ∧
    FloatOrd.cmp 32 ⟨0x7F800000⟩ ⟨0x7FC00000⟩ = Ordering.lt ∧
    FloatOrd.cmp 32 ⟨0xFFC00000⟩ ⟨0x7FC00000⟩ = Ordering.lt :=
  C4_nan_placement 8 23 0x7F800000 0xFFC00000 0x7FC00000 (by norm_num) (by norm_num)
    (by norm_num) (by norm_num) (by norm_num) (by decide) (by decide) (by decide)
    (by decide) (by decide)

/-- C5: the key of +0.0 is exactly the sign bit, the key of -0.0 is its
complement, one less, so -0.0 immediately precedes +0.0; the wrapper orders
-0.0 strictly below +0.0 and they are unequal, at both widths. -/
theorem C5_signed_zero_keys :
    FloatOrd.convert 32 ⟨0⟩ = 2 ^ 31 ∧
    FloatOrd.convert 32 ⟨2 ^ 31⟩ = 2 ^ 31 - 1 ∧
    FloatOrd.cmp 32 ⟨2 ^ 31⟩ ⟨0⟩ = Ordering.lt ∧
    FloatOrd.eq 32 ⟨2 ^ 31⟩ ⟨0⟩ = false ∧
    FloatOrd.convert 64 ⟨0⟩ = 2 ^ 63 ∧
    FloatOrd.convert 64 ⟨2 ^ 63⟩ = 2 ^ 63 - 1 ∧
    FloatOrd.cmp 64 ⟨2 ^ 63⟩ ⟨0⟩ = Ordering.lt ∧
    FloatOrd.eq 64 ⟨2 ^ 63⟩ ⟨0⟩ = false := by decide

/-- C1 (counterexample): as stated the claim is false.  The two positive NaN
patterns 0x7F800002 and 0x7F800001 are mutually equal in the target order of
§1 (positive NaNs form one class), so 0x7F800002 "precedes or equals"
0x7F800001; yet its key is strictly larger, so `key(a) <= key(b)` fails. -/
theorem C1_counterexample :
    ¬(∀ a b : Nat, a < 2 ^ 32 → b < 2 ^ 32 →
      (FloatOrd.convert 32 ⟨a⟩ ≤ FloatOrd.convert 32 ⟨b⟩ ↔ targetLE 8 23 a b)) := by
  intro h
  have h2 := (h 0x7F800002 0x7F800001 (by norm_num) (by norm_num)).2 (by decide)
  exact absurd h2 (by decide)

/-- C1 (amended): for every pair of same-width bit patterns that is not a
pair of two distinct same-sign NaNs, `key(a) <= key(b)` iff `a` precedes or
equals `b` in the target total order; and the transform is injective on the
patterns of each width, so it is strictly monotone across all sign and NaN
class boundaries (same-sign NaNs of distinct payload get distinct keys
inside their extreme band, ordered by payload rather than mutually equal). -/
theorem C1_key_monotone_embedding :
    (∀ E M a b : Nat, 1 ≤ E → 1 ≤ M → a < 2 ^ (E + M + 1) → b < 2 ^ (E + M + 1) →
      ¬(isNaN E M a ∧ isNaN E M b ∧ (isNegative E M a ↔ isNegative E M b) ∧ a ≠ b) →
      (FloatOrd.convert (E + M + 1) ⟨a⟩ ≤ FloatOrd.convert (E + M + 1) ⟨b⟩ ↔
        targetLE E M a b)) ∧
    (∀ w a b : Nat, 1 ≤ w → a < 2 ^ w → b < 2 ^ w →
      FloatOrd.convert w ⟨a⟩ = FloatOrd.convert w ⟨b⟩ → a = b) :=
  ⟨fun _ _ _ _ hE hM ha hb hx => convert_le_iff_targetLE hE hM ha hb hx,
   fun _ _ _ hw ha hb h => convert_inj hw ha hb h⟩

/-- Witness for C1 at width 32: the keys of -1.0 and 1.0 are ordered like the
target order says, and two equal keys force equal patterns. -/
theorem C1_witness :
    (FloatOrd.convert 32 ⟨0xBF800000⟩ ≤ FloatOrd.convert 32 ⟨0x3F800000⟩ ↔
      targetLE 8 23 0xBF800000 0x3F800000) ∧
    ((2:ℕ) < 2 ^ 32 → (3:ℕ) < 2 ^ 32 →
      FloatOrd.convert 32 ⟨2⟩ = FloatOrd.convert 32 ⟨3⟩ → (2:ℕ) = 3) :=
  ⟨C1_key_monotone_embedding.1 8 23 0xBF800000 0x3F800000 (by norm_num) (by norm_num)
      (by norm_num) (by norm_num) (by decide),
   fun h2 h3 => C1_key_monotone_embedding.2 32 2 3 (by norm_num) h2 h3⟩

/-- C6 (counterexample): two positive NaN patterns with different payloads
are NOT equal under the wrapper equality, contrary to the claim that all
positive NaNs are mutually equal. -/
theorem C6_counterexample :
    isNaN 8 23 0x7F800001 ∧ isNaN 8 23 0x7F800002 ∧
    ¬isNegative 8 23 0x7F800001 ∧ ¬isNegative 8 23 0x7F800002 ∧
    FloatOrd.eq 32 ⟨0x7F800001⟩ ⟨0x7F800002⟩ = false := by decide

/-- C6 (amended): same-sign NaNs are equal under the wrapper exactly when
their bit patterns are identical; every positive NaN (any payload) compares
greater than +Infinity and every negative NaN compares less than -Infinity. -/
theorem C6_nan_payload_behaviour :
    (∀ E M a b : Nat, a < 2 ^ (E + M + 1) → b < 2 ^ (E + M + 1) →
      isNaN E M a → isNaN E M b → (isNegative E M a ↔ isNegative E M b) →
      (FloatOrd.eq (E + M + 1) ⟨a⟩ ⟨b⟩ = true ↔ a = b)) ∧
    (∀ E M p : Nat, 1 ≤ E → 1 ≤ M → p < 2 ^ (E + M + 1) →
      isNaN E M p → ¬isNegative E M p →
      FloatOrd.cmp (E + M + 1) ⟨infRest E M⟩ ⟨p⟩ = Ordering.lt) ∧
    (∀ E M n : Nat, 1 ≤ E → 1 ≤ M → n < 2 ^ (E + M + 1) →
      isNaN E M n → isNegative E M n →
      FloatOrd.cmp (E + M + 1) ⟨n⟩ ⟨signHalf E M + infRest E M⟩ = Ordering.lt) := by
  refine ⟨?_, ?_, ?_⟩
  · intro E M a b ha hb _ _ _
    exact floatOrdEq_iff (by omega) ha hb
  · intro E M p hE hM hp hnp hsp
    have hinf := infRest_pos (M := M) hE
    have hiH := infRest_lt_signHalf E M
    rw [floatOrdCmp_eq_lt_iff]
    rw [two_pow_width] at hp
    apply convert_lt_of_class_lt hE hM (by omega) hp
    unfold isNaN at hnp
    unfold isNegative at hsp
    have hr6 := restOf_of_lt (u := infRest E M) (M := M) (E := E) (by omega)
    have h6 : targetClass E M (infRest E M) = 6 :=
      (targetClass_compute hinf).2.2.2.2.2.1 (by omega) (by omega)
    have h7 : targetClass E M p = 7 :=
      (targetClass_compute hinf).2.2.2.2.1 (by omega) hnp
    omega
  · intro E M n hE hM hn hnn hsn
    have hinf := infRest_pos (M := M) hE
    have hiH := infRest_lt_signHalf E M
    have hH := signHalf_pos E M
    rw [floatOrdCmp_eq_lt_iff]
    rw [two_pow_width] at hn
    apply convert_lt_of_class_lt hE hM hn (by omega)
    unfold isNaN at hnn
    unfold isNegative at hsn
    have hr1 := restOf_of_ge (u := signHalf E M + infRest E M) (M := M) (E := E)
      (by omega) (by omega)
    have h1 : targetClass E M (signHalf E M + infRest E M) = 1 :=
      (targetClass_compute hinf).2.1 (by omega) (by omega)
    have h0 : targetClass E M n = 0 := (targetClass_compute hinf).1 hsn hnn
    omega

/-- Witness for C6 at width 32: equal-payload positive NaNs are equal,
+Infinity is below a positive quiet NaN, a negative quiet NaN is below
-Infinity. -/
theorem C6_witness :
    (FloatOrd.eq 32 ⟨0x7F800001⟩ ⟨0x7F800001⟩ = true ↔ (0x7F800001:ℕ) = 0x7F800001) ∧
    FloatOrd.cmp 32 ⟨0x7F800000⟩ ⟨0x7FC00000⟩ = Ordering.lt ∧
    FloatOrd.cmp 32 ⟨0xFFC00000⟩ ⟨0xFF800000⟩ = Ordering.lt :=
  ⟨C6_nan_payload_behaviour.1 8 23 0x7F800001 0x7F800001 (by norm_num) (by norm_num)
      (by decide) (by decide) (by decide),
   C6_nan_payload_behaviour.2.1 8 23 0x7FC00000 (by norm_num) (by norm_num) (by norm_num)
      (by decide) (by decide),
   C6_nan_payload_behaviour.2.2 8 23 0xFFC00000 (by norm_num) (by norm_num) (by norm_num)
      (by decide) (by decide)⟩

/-- C7: the comparison is total: for every width and every pair of wrappers
exactly one of less-than, equal, greater-than holds, and `partial_cmp`
always returns a result (it is `Some` of the three-way comparison), NaN
payloads included. -/
theorem C7_total_comparison :
    ∀ (w : Nat) (x y : FloatOrd Nat),
      ((FloatOrd.cmp w x y = Ordering.lt ∧ FloatOrd.cmp w x y ≠ Ordering.eq ∧
          FloatOrd.cmp w x y ≠ Ordering.gt) ∨
        (FloatOrd.cmp w x y ≠ Ordering.lt ∧ FloatOrd.cmp w x y = Ordering.eq ∧
          FloatOrd.cmp w x y ≠ Ordering.gt) ∨
        (FloatOrd.cmp w x y ≠ Ordering.lt ∧ FloatOrd.cmp w x y ≠ Ordering.eq ∧
          FloatOrd.cmp w x y = Ordering.gt)) ∧
      FloatOrd.pcmp w x y = some (FloatOrd.cmp w x y) := by
  intro w x y
  refine ⟨?_, rfl⟩
  cases h : FloatOrd.cmp w x y
  · exact Or.inl ⟨rfl, by simp, by simp⟩
  · exact Or.inr (Or.inl ⟨by simp, rfl, by simp⟩)
  · exact Or.inr (Or.inr ⟨by simp, by simp, rfl⟩)

/-- C8: hashing feeds exactly the key to the accumulator; hence equal
wrappers hash equally under every hasher, and because the keys of +0.0 and
-0.0 differ, any collision-free accumulator separates their hashes at both
widths. -/
theorem C8_hash_consistency :
    (∀ (α : Type) (h : Nat → α) (w : Nat) (x : FloatOrd Nat),
      FloatOrd.hashWith w h x = h (FloatOrd.convert w x)) ∧
    (∀ (α : Type) (h : Nat → α) (w : Nat) (x y : FloatOrd Nat),
      FloatOrd.eq w x y = true → FloatOrd.hashWith w h x = FloatOrd.hashWith w h y) ∧
    (∀ (α : Type) (h : Nat → α), Function.Injective h →
      FloatOrd.hashWith 32 h ⟨0⟩ ≠ FloatOrd.hashWith 32 h ⟨2 ^ 31⟩ ∧
      FloatOrd.hashWith 64 h ⟨0⟩ ≠ FloatOrd.hashWith 64 h ⟨2 ^ 63⟩) := by
  refine ⟨fun α h w x => rfl, ?_, ?_⟩
  · intro α h w x y hxy
    unfold FloatOrd.eq at hxy
    rw [beq_iff_eq] at hxy
    unfold FloatOrd.hashWith
    rw [hxy]
  · intro α h hinj
    constructor
    · intro hc
      have hk := hinj hc
      exact absurd hk (by decide)
    · intro hc
      have hk := hinj hc
      exact absurd hk (by decide)

/-- Witness for C8 with the identity accumulator. -/
theorem C8_witness :
    FloatOrd.hashWith 32 (fun n => n) ⟨5⟩ = FloatOrd.hashWith 32 (fun n => n) ⟨5⟩ ∧
    FloatOrd.hashWith 32 (fun n => n) ⟨0⟩ ≠ FloatOrd.hashWith 32 (fun n => n) ⟨2 ^ 31⟩ :=
  ⟨C8_hash_consistency.2.1 Nat (fun n => n) 32 ⟨5⟩ ⟨5⟩ (by decide),
   (C8_hash_consistency.2.2 Nat (fun n => n) (fun a b hab => hab)).1⟩

/-- C9: each arithmetic operator is pure forwarding: wrap both operands or
one, apply the underlying type's native operator, rewrap — with no
inspection of the operands (the implementation is generic over the
underlying type, so the operator is a parameter here). -/
theorem C9_ops_forwarding :
    ∀ (α : Type) (op : α → α → α) (a b : α),
      FloatOrd.add op ⟨a⟩ ⟨b⟩ = ⟨op a b⟩ ∧ FloatOrd.addRaw op ⟨a⟩ b = ⟨op a b⟩ ∧
      FloatOrd.sub op ⟨a⟩ ⟨b⟩ = ⟨op a b⟩ ∧ FloatOrd.subRaw op ⟨a⟩ b = ⟨op a b⟩ ∧
      FloatOrd.mul op ⟨a⟩ ⟨b⟩ = ⟨op a b⟩ ∧ FloatOrd.mulRaw op ⟨a⟩ b = ⟨op a b⟩ ∧
      FloatOrd.div op ⟨a⟩ ⟨b⟩ = ⟨op a b⟩ ∧ FloatOrd.divRaw op ⟨a⟩ b = ⟨op a b⟩ ∧
      FloatOrd.rem op ⟨a⟩ ⟨b⟩ = ⟨op a b⟩ ∧ FloatOrd.remRaw op ⟨a⟩ b = ⟨op a b⟩ :=
  fun _ _ _ _ => ⟨rfl, rfl, rfl, rfl, rfl, rfl, rfl, rfl, rfl, rfl⟩

/-- C10 (counterexample): wrapper equality is not contained in native float
equality, so it is not a refinement of it: a quiet NaN pattern is equal to
itself under the wrapper but natively unequal to itself. -/
theorem C10_counterexample :
    FloatOrd.eq 32 ⟨0x7FC00000⟩ ⟨0x7FC00000⟩ = true ∧
    ¬nativeEq 8 23 0x7FC00000 0x7FC00000 := by decide

/-- C10 (amended): the transform is a bijection of the width-w patterns that
sends the sign-clear half onto the upper half of the unsigned range and the
sign-set half onto the lower half; wrapper equality holds iff the bit
patterns are identical (so same-sign NaNs of different payload are unequal);
restricted to non-NaN patterns wrapper equality refines native equality, and
the refinement is strict since the natively equal ±0.0 are wrapper-unequal;
on NaN patterns the two relations are incomparable. -/
theorem C10_eq_is_bit_identity :
    (∀ w a b : Nat, 1 ≤ w → a < 2 ^ w → b < 2 ^ w →
      (FloatOrd.eq w ⟨a⟩ ⟨b⟩ = true ↔ a = b)) ∧
    (∀ w u : Nat, 1 ≤ w → u < 2 ^ w →
      (u < 2 ^ (w - 1) →
        2 ^ (w - 1) ≤ FloatOrd.convert w ⟨u⟩ ∧ FloatOrd.convert w ⟨u⟩ < 2 ^ w) ∧
      (2 ^ (w - 1) ≤ u → FloatOrd.convert w ⟨u⟩ < 2 ^ (w - 1))) ∧
    (∀ w v : Nat, 1 ≤ w → v < 2 ^ w → ∃ u, u < 2 ^ w ∧ FloatOrd.convert w ⟨u⟩ = v) ∧
    (∀ E M a b : Nat, a < 2 ^ (E + M + 1) → b < 2 ^ (E + M + 1) →
      ¬isNaN E M a → ¬isNaN E M b →
      FloatOrd.eq (E + M + 1) ⟨a⟩ ⟨b⟩ = true → nativeEq E M a b) ∧
    (nativeEq 8 23 0 (2 ^ 31) ∧ FloatOrd.eq 32 ⟨0⟩ ⟨2 ^ 31⟩ = false) := by
  have hhalf : ∀ w : Nat, 1 ≤ w → 2 ^ w = 2 * 2 ^ (w - 1) := by
    intro w hw
    obtain ⟨k, rfl⟩ : ∃ k, w = k + 1 := ⟨w - 1, by omega⟩
    rw [Nat.add_sub_cancel, pow_succ]
    ring
  refine ⟨?_, ?_, ?_, ?_, ?_⟩
  · intro w a b hw ha hb
    exact floatOrdEq_iff hw ha hb
  · intro w u hw hu
    have hp := hhalf w hw
    constructor
    · intro h1
      rw [convert_eq_arith hw hu, if_pos h1]
      omega
    · intro h1
      rw [convert_eq_arith hw hu, if_neg (by omega)]
      omega
  · intro w v hw hv
    have hp := hhalf w hw
    by_cases hlow : v < 2 ^ (w - 1)
    · refine ⟨2 ^ w - 1 - v, by omega, ?_⟩
      rw [convert_eq_arith hw (by omega), if_neg (by omega)]
      omega
    · refine ⟨v - 2 ^ (w - 1), by omega, ?_⟩
      rw [convert_eq_arith hw (by omega), if_pos (by omega)]
      omega
  · intro E M a b ha hb hna hnb heq
    have hab : a = b := (floatOrdEq_iff (by omega) ha hb).1 heq
    subst hab
    exact nativeEq_refl hna
  · constructor
    · refine ⟨by decide, by decide, Or.inr (Or.inr ⟨by decide, by decide, ?_⟩)⟩
      rw [qVal_eq_ival 8 23 0 (by decide), qVal_eq_ival 8 23 (2 ^ 31) (by decide)]
      have h1 : ival 8 23 0 = 0 := by
        rw [ival_of_pos (by decide)]
        have hr : restOf 8 23 0 = 0 := by decide
        rw [hr, magOf_zero 8 23 (by norm_num)]
        simp
      have h2 : ival 8 23 (2 ^ 31) = 0 := by
        rw [ival_of_neg (by decide)]
        have hr : restOf 8 23 (2 ^ 31) = 0 := by decide
        rw [hr, magOf_zero 8 23 (by norm_num)]
        simp
      rw [h1, h2]
    · decide

/-- Witness for C10 at concrete inputs. -/
theorem C10_witness :
    (FloatOrd.eq 32 ⟨3⟩ ⟨3⟩ = true ↔ (3:ℕ) = 3) ∧
    (∃ u, u < 2 ^ 32 ∧ FloatOrd.convert 32 ⟨u⟩ = 0) ∧
    nativeEq 8 23 1 1 :=
  ⟨C10_eq_is_bit_identity.1 32 3 3 (by norm_num) (by norm_num) (by norm_num),
   C10_eq_is_bit_identity.2.2.1 32 0 (by norm_num) (by norm_num),
   C10_eq_is_bit_identity.2.2.2.1 8 23 1 1 (by norm_num) (by norm_num) (by decide)
     (by decide) (by decide)⟩
